import Mathlib

/-!
Verification of the command-processing core of `ha_mqtt_publisher`
(`src/ha_mqtt_publisher/commands.py`, class `CommandProcessor`).

The Python code is shallowly embedded as pure Lean functions over an explicit
processor state.  Wall-clock reads (`time.time()`, `_iso_now()`) become
explicit rational-number parameters; the worker thread started by `_process`
is run inline (sequential interleaving), with the single-flight lock kept as
a boolean field of the state so that contended executions are still
expressible.  Each executor invocation is additionally recorded in a ghost
`calls` output so that "the executor is never invoked" is a provable
statement; this instrumentation does not influence state or published
messages.
-/

namespace HaMqtt

/-- JSON-like values, covering everything the command payloads and outbound
envelopes of `commands.py` contain.  `time t` stands for the ISO-8601
rendering of the wall-clock instant `t` produced by `_iso_now()`. -/
inductive Val where
  | str (s : String)
  | int (n : Int)
  | time (t : ℚ)
  | arr (elems : List Val)
  | obj (fields : List (String × Val))
  | null

/-- A Python dict with string keys, kept in insertion order. -/
abbrev Dict := List (String × Val)

/-- Lookup in an association list, mirroring `d.get(k)` / `d[k]`. -/
def alget {α : Type} (l : List (String × α)) (k : String) : Option α :=
  (l.find? (fun kv => kv.1 == k)).map (fun kv => kv.2)

/-- Assignment `d[k] = v` on a Python dict: an existing key keeps its
position and gets the new value, a new key is appended. -/
def alset {α : Type} (l : List (String × α)) (k : String) (v : α) :
    List (String × α) :=
  if l.any (fun kv => kv.1 == k) then
    l.map (fun kv => if kv.1 == k then (k, v) else kv)
  else l ++ [(k, v)]

/-- One entry of `d` after `d.update(e)`: it keeps its key, and takes the
value from `e` when `e` binds that key. -/
def updEntry (e : Dict) (kv : String × Val) : String × Val :=
  match e.find? (fun kv2 => kv2.1 == kv.1) with
  | some kv2 => (kv.1, kv2.2)
  | none => kv

/-- Python `d.update(e)`: keys already in `d` keep their position and take
the value from `e`; keys only in `e` are appended in order. -/
def dictUpdate (d e : Dict) : Dict :=
  d.map (updEntry e) ++
  e.filter (fun kv2 => !(d.any (fun kv => kv.1 == kv2.1)))

/-- Python truthiness of a `Val`. -/
def truthy : Val → Bool
  | .str s => !(s == "")
  | .int n => !(n == 0)
  | .time _ => true
  | .arr l => !l.isEmpty
  | .obj l => !l.isEmpty
  | .null => false

/-- Models `(d.get(k) or "")` for a field expected to hold a string.  A
missing key, `None`, or a falsy value yields `""`.  (A present truthy
non-string value would make the source raise `AttributeError` on the
subsequent `.strip()`; no claim concerns that path, and the model returns
`""` there.) -/
def getStr (d : Dict) (k : String) : String :=
  match alget d k with
  | some (.str s) => s
  | _ => ""

/-- Models `data.get("args") or {}`: a missing or falsy value becomes the
empty object, any truthy value passes through unchanged. -/
def argsOf (d : Dict) : Val :=
  match alget d "args" with
  | some v => if truthy v then v else .obj []
  | none => .obj []

/-- Python `int()` on a real number: truncation toward zero. -/
def pyIntTrunc (q : ℚ) : Int := if 0 ≤ q then ⌊q⌋ else ⌈q⌉

/-- Python `str.strip()`: leading and trailing whitespace removed.
Expressed over the character list (equivalent to `String.trim`) so that
concrete instances evaluate by kernel reduction. -/
def pyStrip (s : String) : String :=
  ⟨((s.data.dropWhile (fun c => c.isWhitespace)).reverse.dropWhile
      (fun c => c.isWhitespace)).reverse⟩

/-- Python `str.lower()` (equivalent to `String.toLower`), expressed over
the character list. -/
def pyLower (s : String) : String := ⟨s.data.map Char.toLower⟩

/-- Python `str.startswith(p)` (equivalent to `String.startsWith`). -/
def pyStartsWith (s p : String) : Bool := List.isPrefixOf p.data s.data

/-- An executor callback: receives the context dict and either returns
`(outcome, details, extra)` or raises (modelled by `Except.error` carrying
`str(e)`). -/
abbrev Executor := Dict → Except String (String × String × Dict)

/-- One call to `client.publish(topic, json.dumps(payload), qos=..., retain=...)`. -/
structure Pub where
  topic : String
  payload : Dict
  qos : Int
  retain : Bool

/-- The mutable state of a `CommandProcessor` instance.  `recentSet` models
the Python `set` as a duplicate-free list used only for membership;
`lockHeld` is the state of `_active_lock`; `maxHistory` is kept as a `Nat`
(the source default is 128 and every claim concerns non-negative bounds). -/
structure ProcState where
  ackTopic : String
  resultTopic : String
  maxHistory : Nat
  retainAck : Bool
  retainResult : Bool
  qos : Int
  executors : List (String × Executor)
  registryMeta : List (String × Dict)
  lastSuccessTs : List (String × ℚ)
  recentIds : List String
  recentSet : List String
  seq : Int
  lockHeld : Bool

/-- Result of one ingress step: the new state, the messages published, and
the ghost list of contexts passed to executors. -/
structure StepOut where
  state : ProcState
  pubs : List Pub
  calls : List Dict

/-- The command name as `_process` computes it:
`(data.get("command") or "").strip().lower()`. -/
def cmdOf (data : Dict) : String := pyLower (pyStrip (getStr data "command"))

/-- The command identifier as `_process` computes it:
`(data.get("id") or "").strip() or str(uuid.uuid4())`, with the fresh UUID
supplied as the explicit `freshId` parameter. -/
def idOf (data : Dict) (freshId : String) : String :=
  if pyStrip (getStr data "id") = "" then freshId else pyStrip (getStr data "id")

/-- The ack envelope built in `_process`. -/
def ackEnvelope (cmd_id cmd : String) (now : ℚ) (seqv : Int) : Dict :=
  [("id", .str cmd_id), ("command", .str cmd), ("received_ts", .time now),
   ("status", .str "received"), ("seq", .int seqv)]

/-- The `unknown_command` result envelope built in `_process`. -/
def unknownEnvelope (cmd_id cmd : String) (now : ℚ) (seqv : Int) : Dict :=
  [("id", .str cmd_id), ("command", .str cmd), ("completed_ts", .time now),
   ("outcome", .str "unknown_command"),
   ("details", .str "No executor registered"),
   ("duration_ms", .int 0), ("seq", .int seqv)]

/-- The `cooldown` result envelope built in `_process`. -/
def cooldownEnvelope (cmd_id cmd : String) (now : ℚ) (remaining : Int)
    (seqv : Int) : Dict :=
  [("id", .str cmd_id), ("command", .str cmd), ("completed_ts", .time now),
   ("outcome", .str "cooldown"),
   ("details", .str ("cooldown_active retry_after_s=" ++ toString remaining)),
   ("retry_after_s", .int remaining), ("duration_ms", .int 0),
   ("seq", .int seqv)]

/-- The `busy` result envelope built in `_run_executor`. -/
def busyEnvelope (cmd_id cmd : String) (endT : ℚ) (seqv : Int) : Dict :=
  [("id", .str cmd_id), ("command", .str cmd), ("completed_ts", .time endT),
   ("outcome", .str "busy"),
   ("details", .str "Another command is executing"),
   ("duration_ms", .int 0), ("seq", .int seqv)]

/-- The normal result envelope built at the end of `_run_executor`, before
`result.update(extra)`. -/
def resultEnvelope (cmd_id cmd : String) (endT : ℚ) (outcome details : String)
    (durationMs seqv : Int) : Dict :=
  [("id", .str cmd_id), ("command", .str cmd), ("completed_ts", .time endT),
   ("outcome", .str outcome), ("details", .str details),
   ("duration_ms", .int durationMs), ("seq", .int seqv)]

/-- The context dict handed to the executor in `_run_executor`. -/
def mkCtx (cmd_id cmd : String) (data : Dict) (received_ts : Val) : Dict :=
  [("id", .str cmd_id), ("command", .str cmd),
   ("requested_ts", (alget data "requested_ts").getD .null),
   ("args", argsOf data), ("raw", .obj data), ("received_ts", received_ts)]

/-- A result publication, carrying the processor's result topic, QoS and
retain policy. -/
def resPubOf (st : ProcState) (payload : Dict) : Pub :=
  ⟨st.resultTopic, payload, st.qos, st.retainResult⟩

/-- The tail of `_run_executor` after a successful permit acquisition:
release of the permit, result construction (with `result.update(extra)` when
`extra` is non-empty), publication, and the `success`-only cooldown
recording of the worker's start time. -/
def runResult (st : ProcState) (cmd_id cmd : String) (data : Dict)
    (received_ts : Val) (o d : String) (extra : Dict)
    (startT endT : ℚ) : StepOut :=
  let res := resultEnvelope cmd_id cmd endT o d
    (pyIntTrunc ((endT - startT) * 1000)) (st.seq + 1)
  let res := if extra.isEmpty then res else dictUpdate res extra
  let ls := if o = "success" then alset st.lastSuccessTs cmd startT
            else st.lastSuccessTs
  ⟨{ st with seq := st.seq + 1, lockHeld := false, lastSuccessTs := ls },
   [resPubOf st res], [mkCtx cmd_id cmd data received_ts]⟩

/-- `CommandProcessor._run_executor`, run inline.  `startT` is the
`time.time()` read at worker entry, `endT` the read taken after the executor
returns (also standing in for the `_iso_now()` of `completed_ts`). -/
def runExecutor (st : ProcState) (cmd_id cmd : String) (ex : Executor)
    (data : Dict) (received_ts : Val) (startT endT : ℚ) : StepOut :=
  if st.lockHeld then
    ⟨{ st with seq := st.seq + 1 },
     [resPubOf st (busyEnvelope cmd_id cmd endT (st.seq + 1))], []⟩
  else
    let r := match ex (mkCtx cmd_id cmd data received_ts) with
      | .ok r => r
      | .error msg => ("fatal_error", msg, ([] : Dict))
    runResult st cmd_id cmd data received_ts r.1 r.2.1 r.2.2 startT endT

/-- The deduplication-ledger update of `_process`: append the accepted
identifier to both the list and the set, then evict the oldest identifier
from both when the list exceeds `max_history`. -/
def ledgerPush (st : ProcState) (cmd_id : String) : ProcState :=
  if st.maxHistory < (st.recentIds ++ [cmd_id]).length then
    { st with
      recentIds := (st.recentIds ++ [cmd_id]).drop 1,
      recentSet := (st.recentSet ++ [cmd_id]).filter
        (fun x => x != (st.recentIds ++ [cmd_id]).headD "") }
  else
    { st with recentIds := st.recentIds ++ [cmd_id],
              recentSet := st.recentSet ++ [cmd_id] }

/-- `CommandProcessor._process` with the dispatched worker inlined.  `now`
is the `time.time()` / `_iso_now()` instant of the ingress path; `startT`
and `endT` are the worker's clock reads. -/
def process (st : ProcState) (data : Dict) (freshId : String)
    (now startT endT : ℚ) : StepOut :=
  let cmd := cmdOf data
  if cmd = "" then ⟨st, [], []⟩
  else
    let cmd_id := idOf data freshId
    if cmd_id ∈ st.recentSet then ⟨st, [], []⟩
    else
      let st1 := ledgerPush st cmd_id
      let seq1 := st1.seq + 1
      let st2 := { st1 with seq := seq1 }
      let ackPub : Pub :=
        ⟨st.ackTopic, ackEnvelope cmd_id cmd now seq1, st.qos, st.retainAck⟩
      match alget st.executors cmd with
      | none =>
        let seq2 := st2.seq + 1
        ⟨{ st2 with seq := seq2 },
         [ackPub, resPubOf st (unknownEnvelope cmd_id cmd now seq2)], []⟩
      | some ex =>
        let meta := (alget st.registryMeta cmd).getD []
        let cdOpt : Option Int :=
          match alget meta "cooldown_seconds" with
          | some (.int n) => if 0 < n then some n else none
          | _ => none
        match cdOpt, alget st.lastSuccessTs cmd with
        | some cd, some ts =>
          if now - ts < (cd : ℚ) then
            let remaining := pyIntTrunc ((cd : ℚ) - (now - ts))
            let seq2 := st2.seq + 1
            ⟨{ st2 with seq := seq2 },
             [ackPub, resPubOf st (cooldownEnvelope cmd_id cmd now remaining seq2)],
             []⟩
          else
            let w := runExecutor st2 cmd_id cmd ex data (.time now) startT endT
            ⟨w.state, ackPub :: w.pubs, w.calls⟩
        | _, _ =>
          let w := runExecutor st2 cmd_id cmd ex data (.time now) startT endT
          ⟨w.state, ackPub :: w.pubs, w.calls⟩

/-- `CommandProcessor.handle_raw`.  `jsonLoads` models
`json.loads(stripped) or {}`: it returns the decoded object (with Python
falsy decode results already replaced by the empty dict), or `none` when
decoding raises. -/
def handleRaw (st : ProcState) (payload : String)
    (jsonLoads : String → Option Dict) (freshId : String)
    (now startT endT : ℚ) : StepOut :=
  let stripped := pyStrip payload
  if stripped = "" then ⟨st, [], []⟩
  else
    let data : Dict :=
      if pyStartsWith stripped "\x7b" then
        match jsonLoads stripped with
        | some d => d
        | none => [("command", .str stripped)]
      else [("command", .str stripped)]
    process st data freshId now startT endT

/-- `CommandProcessor.register`, restricted to the arguments the claims
exercise (`name`, `executor`, `cooldown_seconds`); the remaining metadata
fields take their source defaults.  The best-effort auto-registry publish is
omitted (it touches no processor state relevant to any claim). -/
def register (st : ProcState) (name : String) (ex : Executor)
    (cooldown_seconds : Option Int) : ProcState :=
  let meta0 : Dict :=
    [("name", .str name), ("description", .str ""), ("args_schema", .obj []),
     ("outcome_codes", .arr [.str "success", .str "validation_failed",
       .str "fatal_error", .str "busy"]),
     ("qos_recommended", .int st.qos)]
  let meta := match cooldown_seconds with
    | some c => meta0 ++ [("cooldown_seconds", .int c)]
    | none => meta0
  { st with executors := alset st.executors name ex,
            registryMeta := alset st.registryMeta name meta }

/-- A freshly constructed `CommandProcessor(client, ack_topic, result_topic)`
with the dataclass defaults. -/
def initState (ackTopic resultTopic : String) (maxHistory : Nat) : ProcState :=
  { ackTopic := ackTopic, resultTopic := resultTopic,
    maxHistory := maxHistory, retainAck := false, retainResult := false,
    qos := 1, executors := [], registryMeta := [], lastSuccessTs := [],
    recentIds := [], recentSet := [], seq := 0, lockHeld := false }

/-- One inbound request for a trace: the decoded payload plus the clock
reads of its ingress and worker phases. -/
structure Req where
  data : Dict
  freshId : String
  now : ℚ
  startT : ℚ
  endT : ℚ

/-- Runs a sequence of requests through `_process`, concatenating the
published messages in emission order. -/
def runTrace (st : ProcState) : List Req → StepOut
  | [] => ⟨st, [], []⟩
  | r :: rs =>
    let o1 := process st r.data r.freshId r.now r.startT r.endT
    let o2 := runTrace o1.state rs
    ⟨o2.state, o1.pubs ++ o2.pubs, o1.calls ++ o2.calls⟩

/-- The `seq` field of a published envelope, when it is an integer. -/
def pubSeq (p : Pub) : Option Int :=
  match alget p.payload "seq" with
  | some (.int n) => some n
  | _ => none

/-- The acknowledgement publication emitted for an accepted command, as
`_process` constructs it (the sequence counter has just been bumped to
`st.seq + 1`). -/
def ackPubOf (st : ProcState) (data : Dict) (freshId : String) (now : ℚ) : Pub :=
  ⟨st.ackTopic, ackEnvelope (idOf data freshId) (cmdOf data) now (st.seq + 1),
   st.qos, st.retainAck⟩

/-- Well-formedness of the deduplication ledger: the ordered list is
duplicate-free and bounded by `max_history`, and the lookup set holds
exactly the identifiers of the list. -/
def LedgerInv (st : ProcState) : Prop :=
  st.recentIds.Nodup ∧ st.recentIds.length ≤ st.maxHistory ∧
  ∀ x, x ∈ st.recentSet ↔ x ∈ st.recentIds

/-- No registered executor ever returns an extra map containing a `"seq"`
key (extras are merged into the result envelope and would overwrite it). -/
def NoSeqOverride (exs : List (String × Executor)) : Prop :=
  ∀ nm exf, (nm, exf) ∈ exs → ∀ ctx o d extra,
    exf ctx = Except.ok (o, d, extra) → alget extra "seq" = none

/-- The published envelopes all carry integer `seq` fields that are strictly
increasing in emission order. -/
def StrictlyIncreasingSeqs (pubs : List Pub) : Prop :=
  ∃ seqs : List Int, pubs.map pubSeq = seqs.map Option.some ∧
    List.Chain' (· < ·) seqs

/-- Strictly increasing integer `seq` fields confined to the window
`(lo, hi]`; used to compose per-step sequence facts along a trace. -/
def SeqWindow (lo hi : Int) (pubs : List Pub) : Prop :=
  ∃ seqs : List Int, pubs.map pubSeq = seqs.map Option.some ∧
    List.Chain' (· < ·) seqs ∧ ∀ s ∈ seqs, lo < s ∧ s ≤ hi

/-- An executor that always succeeds and returns no extra fields. -/
def okExec : Executor := fun _ => .ok ("success", "ok", [])

/-- An executor that always raises. -/
def errExec : Executor := fun _ => .error "kaboom"

/-- An executor whose extra map carries a `"seq"` key, overriding the
sequence-counter value of its result envelope. -/
def clobberSeqExec : Executor := fun _ => .ok ("done", "d", [("seq", Val.int 1)])

/-- An executor whose extra map carries an `"outcome"` key, overriding the
standard outcome field of its result envelope. -/
def overrideOutcomeExec : Executor :=
  fun _ => .ok ("success", "ok", [("outcome", Val.str "hacked")])

/-- A decoder for the single structured payload of the C6 counterexample:
the object has a `name` field but no `command` field. -/
def json6 : String → Option Dict := fun s =>
  if s = "\x7b\"name\":\"x\"\x7d" then some [("name", Val.str "x")] else none

/-- A decoder for the single structured payload used to witness the parser
behaviour: a `command` field (mixed case), an `id`, a `requested_ts` and an
`args` object. -/
def jsonX : String → Option Dict := fun s =>
  if s = "\x7b\"command\":\"X\",\"id\":\"i1\",\"requested_ts\":\"2024-01-01\",\"args\":\x7b\"k\":7\x7d\x7d"
  then
    some [("command", Val.str "X"), ("id", Val.str "i1"),
          ("requested_ts", Val.str "2024-01-01"),
          ("args", Val.obj [("k", Val.int 7)])]
  else none

/-- A processor with `ping` registered at `cooldown_seconds = 1` and a prior
success recorded at instant 0. -/
def st5 : ProcState :=
  { register (initState "ack" "result" 128) "ping" okExec (some 1) with
    lastSuccessTs := [("ping", (0 : ℚ))] }

/-- A processor with an executor registered for command `x`. -/
def st6 : ProcState := register (initState "ack" "result" 128) "x" okExec none

/-- A processor with the `seq`-clobbering executor registered. -/
def stClob : ProcState :=
  register (initState "ack" "result" 128) "boom" clobberSeqExec none

/-- A processor whose execution permit is currently held. -/
def stLocked : ProcState :=
  { register (initState "ack" "result" 128) "work" okExec none with
    lockHeld := true }

/-- A fresh processor with `ping` registered and no cooldown. -/
def stPing : ProcState :=
  register (initState "ack" "result" 128) "ping" okExec none

theorem alget_cons {α : Type} (k0 : String) (v0 : α) (l : List (String × α))
    (k : String) :
    alget ((k0, v0) :: l) k = if k0 = k then some v0 else alget l k := by
  by_cases h : k0 = k
  · simp [alget, List.find?_cons, h]
  · simp [alget, List.find?_cons, h]

theorem mem_of_alget_eq_some {α : Type} {l : List (String × α)} {k : String}
    {v : α} (h : alget l k = some v) : (k, v) ∈ l := by
  induction l with
  | nil => simp [alget] at h
  | cons kv t ih =>
    rcases kv with ⟨k0, v0⟩
    rw [alget_cons] at h
    by_cases hk : k0 = k
    · rw [if_pos hk] at h
      injection h with h
      subst hk; subst h
      exact List.mem_cons_self _ _
    · rw [if_neg hk] at h
      exact List.mem_cons_of_mem _ (ih h)

theorem alget_eq_none_iff {α : Type} {l : List (String × α)} {k : String} :
    alget l k = none ↔ ∀ kv ∈ l, kv.1 ≠ k := by
  unfold alget
  rw [Option.map_eq_none', List.find?_eq_none]
  simp

theorem alget_append {α : Type} (l1 l2 : List (String × α)) (k : String) :
    alget (l1 ++ l2) k =
      match alget l1 k with
      | some v => some v
      | none => alget l2 k := by
  induction l1 with
  | nil => simp [alget]
  | cons kv t ih =>
    rcases kv with ⟨k0, v0⟩
    rw [List.cons_append, alget_cons, alget_cons]
    by_cases hk : k0 = k
    · simp [hk]
    · simp [hk, ih]

theorem find?_key_filter {e : Dict} {g : String × Val → Bool} {k : String}
    (hg : ∀ kv ∈ e, kv.1 = k → g kv = true) :
    (e.filter g).find? (fun kv => kv.1 == k) =
      e.find? (fun kv => kv.1 == k) := by
  induction e with
  | nil => rfl
  | cons kv t ih =>
    have ht : ∀ x ∈ t, x.1 = k → g x = true :=
      fun x hx => hg x (List.mem_cons_of_mem _ hx)
    by_cases hk : kv.1 = k
    · have hgv : g kv = true := hg kv (List.mem_cons_self _ _) hk
      rw [List.filter_cons_of_pos hgv]
      simp [List.find?_cons, hk]
    · by_cases hgv : g kv = true
      · rw [List.filter_cons_of_pos hgv]
        simp [List.find?_cons, hk, ih ht]
      · rw [List.filter_cons_of_neg (by simpa using hgv)]
        simp [List.find?_cons, hk, ih ht]

theorem alget_filter_of_no_key {e : Dict} {d : Dict} {k : String}
    (hd : alget d k = none) :
    alget (e.filter (fun kv2 => !(d.any (fun kv => kv.1 == kv2.1)))) k =
      alget e k := by
  unfold alget
  rw [find?_key_filter]
  intro kv _ hk
  rw [alget_eq_none_iff] at hd
  simp only [Bool.not_eq_true']
  rw [List.any_eq_false]
  intro x hx
  simp only [hk]
  simpa using fun h => hd x hx (by simpa using h)

theorem alget_cons' {α : Type} (kv : String × α) (l : List (String × α))
    (k : String) :
    alget (kv :: l) k = if kv.1 = k then some kv.2 else alget l k := by
  rcases kv with ⟨k0, v0⟩
  exact alget_cons k0 v0 l k

theorem updEntry_key (e : Dict) (kv : String × Val) :
    (updEntry e kv).1 = kv.1 := by
  unfold updEntry
  cases e.find? (fun kv2 => kv2.1 == kv.1) <;> rfl

theorem updEntry_of_some {e : Dict} {k : String} {v : Val} (v0 : Val)
    (he : alget e k = some v) : updEntry e (k, v0) = (k, v) := by
  obtain ⟨kv2, hf, hv⟩ := Option.map_eq_some'.mp he
  unfold updEntry
  simp only [hf, hv]

theorem updEntry_of_none {e : Dict} {k : String} (v0 : Val)
    (he : alget e k = none) : updEntry e (k, v0) = (k, v0) := by
  have hf : e.find? (fun kv2 => kv2.1 == k) = none := Option.map_eq_none'.mp he
  unfold updEntry
  simp only [hf]

theorem alget_mapPart_of_some {d e : Dict} {k : String} {w v : Val}
    (hd : alget d k = some w) (he : alget e k = some v) :
    alget (d.map (updEntry e)) k = some v := by
  induction d with
  | nil => simp [alget] at hd
  | cons kv t ih =>
    rcases kv with ⟨k0, v0⟩
    rw [alget_cons] at hd
    rw [List.map_cons, alget_cons', updEntry_key]
    by_cases hk : k0 = k
    · subst hk
      rw [if_pos rfl, updEntry_of_some v0 he]
    · rw [if_neg hk] at hd
      rw [if_neg hk]
      exact ih hd

theorem alget_mapPart_of_none {d e : Dict} {k : String}
    (he : alget e k = none) :
    alget (d.map (updEntry e)) k = alget d k := by
  induction d with
  | nil => rfl
  | cons kv t ih =>
    rcases kv with ⟨k0, v0⟩
    rw [List.map_cons, alget_cons', updEntry_key, alget_cons]
    by_cases hk : k0 = k
    · subst hk
      rw [if_pos rfl, if_pos rfl, updEntry_of_none v0 he]
    · rw [if_neg hk, if_neg hk, ih]

theorem alget_mapPart_keyless {d e : Dict} {k : String}
    (hd : alget d k = none) :
    alget (d.map (updEntry e)) k = none := by
  induction d with
  | nil => rfl
  | cons kv t ih =>
    rcases kv with ⟨k0, v0⟩
    rw [alget_cons] at hd
    rw [List.map_cons, alget_cons', updEntry_key]
    by_cases hk : k0 = k
    · rw [if_pos hk] at hd; exact absurd hd (by simp)
    · rw [if_neg hk] at hd
      rw [if_neg hk]
      exact ih hd

theorem alget_dictUpdate_of_extra {d e : Dict} {k : String} {v : Val}
    (he : alget e k = some v) :
    alget (dictUpdate d e) k = some v := by
  unfold dictUpdate
  rw [alget_append]
  cases hd : alget d k with
  | some w => rw [alget_mapPart_of_some hd he]
  | none => rw [alget_mapPart_keyless hd, alget_filter_of_no_key hd, he]

theorem alget_dictUpdate_of_no_extra {d e : Dict} {k : String}
    (he : alget e k = none) :
    alget (dictUpdate d e) k = alget d k := by
  unfold dictUpdate
  rw [alget_append, alget_mapPart_of_none he]
  cases hd : alget d k with
  | some w => rfl
  | none => rw [alget_filter_of_no_key hd, he]

theorem ledgerPush_seq (st : ProcState) (c : String) :
    (ledgerPush st c).seq = st.seq := by
  unfold ledgerPush; split <;> rfl

theorem ledgerPush_lockHeld (st : ProcState) (c : String) :
    (ledgerPush st c).lockHeld = st.lockHeld := by
  unfold ledgerPush; split <;> rfl

theorem ledgerPush_lastSuccessTs (st : ProcState) (c : String) :
    (ledgerPush st c).lastSuccessTs = st.lastSuccessTs := by
  unfold ledgerPush; split <;> rfl

theorem ledgerPush_executors (st : ProcState) (c : String) :
    (ledgerPush st c).executors = st.executors := by
  unfold ledgerPush; split <;> rfl

theorem ledgerPush_registryMeta (st : ProcState) (c : String) :
    (ledgerPush st c).registryMeta = st.registryMeta := by
  unfold ledgerPush; split <;> rfl

theorem runExecutor_busy (st : ProcState) (cmd_id cmd : String) (ex : Executor)
    (data : Dict) (rts : Val) (sT eT : ℚ) (h : st.lockHeld = true) :
    runExecutor st cmd_id cmd ex data rts sT eT =
      ⟨{ st with seq := st.seq + 1 },
       [resPubOf st (busyEnvelope cmd_id cmd eT (st.seq + 1))], []⟩ := by
  simp [runExecutor, h]

theorem runExecutor_ok (st : ProcState) (cmd_id cmd : String) (ex : Executor)
    (data : Dict) (rts : Val) (sT eT : ℚ) (o d : String) (extra : Dict)
    (h : st.lockHeld = false)
    (he : ex (mkCtx cmd_id cmd data rts) = Except.ok (o, d, extra)) :
    runExecutor st cmd_id cmd ex data rts sT eT =
      runResult st cmd_id cmd data rts o d extra sT eT := by
  simp [runExecutor, h, he]

theorem runExecutor_err (st : ProcState) (cmd_id cmd : String) (ex : Executor)
    (data : Dict) (rts : Val) (sT eT : ℚ) (msg : String)
    (h : st.lockHeld = false)
    (he : ex (mkCtx cmd_id cmd data rts) = Except.error msg) :
    runExecutor st cmd_id cmd ex data rts sT eT =
      runResult st cmd_id cmd data rts "fatal_error" msg [] sT eT := by
  simp [runExecutor, h, he]

theorem process_empty_name (st : ProcState) (data : Dict) (freshId : String)
    (now sT eT : ℚ) (h : cmdOf data = "") :
    process st data freshId now sT eT = ⟨st, [], []⟩ := by
  simp [process, h]

theorem process_duplicate (st : ProcState) (data : Dict) (freshId : String)
    (now sT eT : ℚ) (h2 : idOf data freshId ∈ st.recentSet) :
    process st data freshId now sT eT = ⟨st, [], []⟩ := by
  by_cases h1 : cmdOf data = ""
  · simp [process, h1]
  · simp [process, h1, h2]

theorem process_accepted_split (st : ProcState) (data : Dict)
    (freshId : String) (now startT endT : ℚ) (hc : cmdOf data ≠ "")
    (hd : idOf data freshId ∉ st.recentSet) :
    (alget st.executors (cmdOf data) = none ∧
      process st data freshId now startT endT =
        ⟨{ ledgerPush st (idOf data freshId) with seq := st.seq + 1 + 1 },
         [ackPubOf st data freshId now,
          resPubOf st (unknownEnvelope (idOf data freshId) (cmdOf data) now
            (st.seq + 1 + 1))], []⟩) ∨
    (∃ ex cd ts, alget st.executors (cmdOf data) = some ex ∧
      alget ((alget st.registryMeta (cmdOf data)).getD []) "cooldown_seconds"
        = some (.int cd) ∧ 0 < cd ∧
      alget st.lastSuccessTs (cmdOf data) = some ts ∧ now - ts < (cd : ℚ) ∧
      process st data freshId now startT endT =
        ⟨{ ledgerPush st (idOf data freshId) with seq := st.seq + 1 + 1 },
         [ackPubOf st data freshId now,
          resPubOf st (cooldownEnvelope (idOf data freshId) (cmdOf data) now
            (pyIntTrunc ((cd : ℚ) - (now - ts))) (st.seq + 1 + 1))], []⟩) ∨
    (∃ ex, alget st.executors (cmdOf data) = some ex ∧
      process st data freshId now startT endT =
        ⟨(runExecutor
            { ledgerPush st (idOf data freshId) with seq := st.seq + 1 }
            (idOf data freshId) (cmdOf data) ex data (.time now)
            startT endT).state,
         ackPubOf st data freshId now ::
           (runExecutor
             { ledgerPush st (idOf data freshId) with seq := st.seq + 1 }
             (idOf data freshId) (cmdOf data) ex data (.time now)
             startT endT).pubs,
         (runExecutor
           { ledgerPush st (idOf data freshId) with seq := st.seq + 1 }
           (idOf data freshId) (cmdOf data) ex data (.time now)
           startT endT).calls⟩) := by
  rcases hE : alget st.executors (cmdOf data) with _ | ex
  · left
    refine ⟨rfl, ?_⟩
    simp only [process]
    rw [if_neg hc, if_neg hd, hE]
    simp [ackPubOf, ledgerPush_seq]
  · rcases hCD : alget ((alget st.registryMeta (cmdOf data)).getD [])
        "cooldown_seconds" with _ | v
    · right; right
      refine ⟨ex, rfl, ?_⟩
      simp only [process]
      rw [if_neg hc, if_neg hd, hE, hCD]
      simp [ackPubOf, ledgerPush_seq]
    · rcases v with s | n | t | a | o | _
      case int =>
        by_cases hn : 0 < n
        · rcases hTS : alget st.lastSuccessTs (cmdOf data) with _ | ts
          · right; right
            refine ⟨ex, rfl, ?_⟩
            simp only [process]
            rw [if_neg hc, if_neg hd, hE, hCD, hTS]
            simp [ackPubOf, ledgerPush_seq, hn]
          · by_cases hlt : now - ts < (n : ℚ)
            · right; left
              refine ⟨ex, n, ts, rfl, rfl, hn, rfl, hlt, ?_⟩
              simp only [process]
              rw [if_neg hc, if_neg hd, hE, hCD, hTS]
              simp [ackPubOf, ledgerPush_seq, hn, hlt]
            · right; right
              refine ⟨ex, rfl, ?_⟩
              simp only [process]
              rw [if_neg hc, if_neg hd, hE, hCD, hTS]
              simp [ackPubOf, ledgerPush_seq, hn, hlt]
        · right; right
          refine ⟨ex, rfl, ?_⟩
          simp only [process]
          rw [if_neg hc, if_neg hd, hE, hCD]
          simp [ackPubOf, ledgerPush_seq, hn]
      all_goals
        right; right
        refine ⟨ex, rfl, ?_⟩
        simp only [process]
        rw [if_neg hc, if_neg hd, hE, hCD]
        simp [ackPubOf, ledgerPush_seq]

theorem ledgerPush_maxHistory (st : ProcState) (c : String) :
    (ledgerPush st c).maxHistory = st.maxHistory := by
  unfold ledgerPush; split <;> rfl

theorem ledgerPush_resultTopic (st : ProcState) (c : String) :
    (ledgerPush st c).resultTopic = st.resultTopic := by
  unfold ledgerPush; split <;> rfl

theorem ledgerPush_qos (st : ProcState) (c : String) :
    (ledgerPush st c).qos = st.qos := by
  unfold ledgerPush; split <;> rfl

theorem ledgerPush_retainResult (st : ProcState) (c : String) :
    (ledgerPush st c).retainResult = st.retainResult := by
  unfold ledgerPush; split <;> rfl

theorem pubSeq_ack (st : ProcState) (data : Dict) (freshId : String) (now : ℚ) :
    pubSeq (ackPubOf st data freshId now) = some (st.seq + 1) := rfl

theorem pubSeq_unknown (st : ProcState) (cmd_id cmd : String) (now : ℚ)
    (s : Int) : pubSeq (resPubOf st (unknownEnvelope cmd_id cmd now s)) =
      some s := rfl

theorem pubSeq_cooldown (st : ProcState) (cmd_id cmd : String) (now : ℚ)
    (r s : Int) :
    pubSeq (resPubOf st (cooldownEnvelope cmd_id cmd now r s)) = some s := rfl

theorem pubSeq_busy (st : ProcState) (cmd_id cmd : String) (eT : ℚ) (s : Int) :
    pubSeq (resPubOf st (busyEnvelope cmd_id cmd eT s)) = some s := rfl

theorem pubSeq_resultEnvelope (st : ProcState) (cmd_id cmd : String) (eT : ℚ)
    (o d : String) (dur s : Int) :
    pubSeq (resPubOf st (resultEnvelope cmd_id cmd eT o d dur s)) =
      some s := rfl

theorem alget_dictUpdate_isSome {d e : Dict} {k : String}
    (hd : (alget d k).isSome = true) :
    (alget (dictUpdate d e) k).isSome = true := by
  cases he : alget e k with
  | some v => rw [alget_dictUpdate_of_extra he]; rfl
  | none => rw [alget_dictUpdate_of_no_extra he]; exact hd

theorem runResult_state (st : ProcState) (cmd_id cmd : String) (data : Dict)
    (rts : Val) (o d : String) (extra : Dict) (sT eT : ℚ) :
    (runResult st cmd_id cmd data rts o d extra sT eT).state =
      { st with
          seq := st.seq + 1,
          lockHeld := false,
          lastSuccessTs := if o = "success" then alset st.lastSuccessTs cmd sT
                           else st.lastSuccessTs } := rfl

theorem runResult_calls (st : ProcState) (cmd_id cmd : String) (data : Dict)
    (rts : Val) (o d : String) (extra : Dict) (sT eT : ℚ) :
    (runResult st cmd_id cmd data rts o d extra sT eT).calls =
      [mkCtx cmd_id cmd data rts] := rfl

theorem runResult_pubs (st : ProcState) (cmd_id cmd : String) (data : Dict)
    (rts : Val) (o d : String) (extra : Dict) (sT eT : ℚ) :
    (runResult st cmd_id cmd data rts o d extra sT eT).pubs =
      [resPubOf st (if extra.isEmpty
        then resultEnvelope cmd_id cmd eT o d
          (pyIntTrunc ((eT - sT) * 1000)) (st.seq + 1)
        else dictUpdate (resultEnvelope cmd_id cmd eT o d
          (pyIntTrunc ((eT - sT) * 1000)) (st.seq + 1)) extra)] := rfl

theorem runResult_pubSeq (st : ProcState) (cmd_id cmd : String) (data : Dict)
    (rts : Val) (o d : String) (extra : Dict) (sT eT : ℚ)
    (hseq : alget extra "seq" = none) :
    ∃ p : Pub, (runResult st cmd_id cmd data rts o d extra sT eT).pubs = [p] ∧
      pubSeq p = some (st.seq + 1) := by
  refine ⟨_, runResult_pubs st cmd_id cmd data rts o d extra sT eT, ?_⟩
  by_cases hx : extra.isEmpty
  · simp only [hx, if_true]
    exact pubSeq_resultEnvelope st cmd_id cmd eT o d _ _
  · simp only [hx, if_false, Bool.false_eq_true]
    unfold pubSeq resPubOf
    rw [alget_dictUpdate_of_no_extra hseq]
    rfl

theorem runResult_outcome (st : ProcState) (cmd_id cmd : String) (data : Dict)
    (rts : Val) (o d : String) (extra : Dict) (sT eT : ℚ) :
    ∃ res : Dict,
      (runResult st cmd_id cmd data rts o d extra sT eT).pubs =
        [resPubOf st res] ∧ (alget res "outcome").isSome = true := by
  refine ⟨_, runResult_pubs st cmd_id cmd data rts o d extra sT eT, ?_⟩
  by_cases hx : extra.isEmpty
  · simp only [hx, if_true]; rfl
  · simp only [hx, if_false, Bool.false_eq_true]
    exact alget_dictUpdate_isSome (by rfl)

theorem runExecutor_facts (st : ProcState) (cmd_id cmd : String)
    (ex : Executor) (data : Dict) (rts : Val) (sT eT : ℚ) :
    (runExecutor st cmd_id cmd ex data rts sT eT).state.seq = st.seq + 1 ∧
    (runExecutor st cmd_id cmd ex data rts sT eT).state.recentIds
      = st.recentIds ∧
    (runExecutor st cmd_id cmd ex data rts sT eT).state.recentSet
      = st.recentSet ∧
    (runExecutor st cmd_id cmd ex data rts sT eT).state.maxHistory
      = st.maxHistory ∧
    (runExecutor st cmd_id cmd ex data rts sT eT).state.executors
      = st.executors ∧
    ∃ res : Dict,
      (runExecutor st cmd_id cmd ex data rts sT eT).pubs = [resPubOf st res] ∧
      (alget res "outcome").isSome = true := by
  by_cases h : st.lockHeld
  · rw [runExecutor_busy st cmd_id cmd ex data rts sT eT h]
    exact ⟨rfl, rfl, rfl, rfl, rfl, busyEnvelope cmd_id cmd eT (st.seq + 1),
      rfl, rfl⟩
  · have h' : st.lockHeld = false := by simpa using h
    rcases hec : ex (mkCtx cmd_id cmd data rts) with msg | ⟨o, d, extra⟩
    · rw [runExecutor_err st cmd_id cmd ex data rts sT eT msg h' hec]
      obtain ⟨res, hp, ho⟩ :=
        runResult_outcome st cmd_id cmd data rts "fatal_error" msg [] sT eT
      exact ⟨rfl, rfl, rfl, rfl, rfl, res, hp, ho⟩
    · rw [runExecutor_ok st cmd_id cmd ex data rts sT eT o d extra h' hec]
      obtain ⟨res, hp, ho⟩ :=
        runResult_outcome st cmd_id cmd data rts o d extra sT eT
      exact ⟨rfl, rfl, rfl, rfl, rfl, res, hp, ho⟩

theorem runExecutor_pubSeq (st : ProcState) (cmd_id cmd : String)
    (ex : Executor) (data : Dict) (rts : Val) (sT eT : ℚ)
    (hno : ∀ ctx o d extra, ex ctx = Except.ok (o, d, extra) →
      alget extra "seq" = none) :
    ∃ p : Pub, (runExecutor st cmd_id cmd ex data rts sT eT).pubs = [p] ∧
      pubSeq p = some (st.seq + 1) := by
  by_cases h : st.lockHeld
  · rw [runExecutor_busy st cmd_id cmd ex data rts sT eT h]
    exact ⟨_, rfl, pubSeq_busy st cmd_id cmd eT (st.seq + 1)⟩
  · have h' : st.lockHeld = false := by simpa using h
    rcases hec : ex (mkCtx cmd_id cmd data rts) with msg | ⟨o, d, extra⟩
    · rw [runExecutor_err st cmd_id cmd ex data rts sT eT msg h' hec]
      exact runResult_pubSeq st cmd_id cmd data rts "fatal_error" msg [] sT eT
        rfl
    · rw [runExecutor_ok st cmd_id cmd ex data rts sT eT o d extra h' hec]
      exact runResult_pubSeq st cmd_id cmd data rts o d extra sT eT
        (hno _ _ _ _ hec)

theorem process_accepted_shape (st : ProcState) (data : Dict)
    (freshId : String) (now sT eT : ℚ) (hc : cmdOf data ≠ "")
    (hd : idOf data freshId ∉ st.recentSet) :
    ∃ res : Dict,
      (process st data freshId now sT eT).pubs =
        [ackPubOf st data freshId now, resPubOf st res] ∧
      (alget res "outcome").isSome = true := by
  rcases process_accepted_split st data freshId now sT eT hc hd with
    ⟨_, heq⟩ | ⟨ex, cd, ts, _, _, _, _, _, heq⟩ | ⟨ex, _, heq⟩
  · exact ⟨unknownEnvelope (idOf data freshId) (cmdOf data) now
      (st.seq + 1 + 1), by rw [heq], rfl⟩
  · exact ⟨cooldownEnvelope (idOf data freshId) (cmdOf data) now
      (pyIntTrunc ((cd : ℚ) - (now - ts))) (st.seq + 1 + 1), by rw [heq], rfl⟩
  · obtain ⟨_, _, _, _, _, res, hp, ho⟩ :=
      runExecutor_facts
        { ledgerPush st (idOf data freshId) with seq := st.seq + 1 }
        (idOf data freshId) (cmdOf data) ex data (.time now) sT eT
    refine ⟨res, ?_, ho⟩
    rw [heq]
    simp only [hp]
    have : resPubOf
        { ledgerPush st (idOf data freshId) with seq := st.seq + 1 } res =
        resPubOf st res := by
      simp [resPubOf, ledgerPush_resultTopic, ledgerPush_qos,
        ledgerPush_retainResult]
    rw [this]

theorem process_ledger_cases (st : ProcState) (data : Dict) (freshId : String)
    (now sT eT : ℚ) :
    ((process st data freshId now sT eT).state = st ∧
     (process st data freshId now sT eT).pubs = []) ∨
    (cmdOf data ≠ "" ∧ idOf data freshId ∉ st.recentSet ∧
     (process st data freshId now sT eT).state.recentIds
       = (ledgerPush st (idOf data freshId)).recentIds ∧
     (process st data freshId now sT eT).state.recentSet
       = (ledgerPush st (idOf data freshId)).recentSet ∧
     (process st data freshId now sT eT).state.maxHistory = st.maxHistory) := by
  by_cases hc : cmdOf data = ""
  · left; rw [process_empty_name st data freshId now sT eT hc]; exact ⟨rfl, rfl⟩
  · by_cases hd : idOf data freshId ∈ st.recentSet
    · left; rw [process_duplicate st data freshId now sT eT hd]
      exact ⟨rfl, rfl⟩
    · right
      refine ⟨hc, hd, ?_⟩
      rcases process_accepted_split st data freshId now sT eT hc hd with
        ⟨_, heq⟩ | ⟨ex, cd, ts, _, _, _, _, _, heq⟩ | ⟨ex, _, heq⟩
      · rw [heq]
        exact ⟨rfl, rfl, ledgerPush_maxHistory st _⟩
      · rw [heq]
        exact ⟨rfl, rfl, ledgerPush_maxHistory st _⟩
      · obtain ⟨_, hids, hset, hmax, _, _⟩ :=
          runExecutor_facts
            { ledgerPush st (idOf data freshId) with seq := st.seq + 1 }
            (idOf data freshId) (cmdOf data) ex data (.time now) sT eT
        rw [heq]
        refine ⟨?_, ?_, ?_⟩
        · rw [hids]
        · rw [hset]
        · rw [hmax]; exact ledgerPush_maxHistory st _

theorem ledgerPush_no_evict (st : ProcState) (cid : String)
    (h : st.recentIds.length + 1 ≤ st.maxHistory) :
    ledgerPush st cid =
      { st with recentIds := st.recentIds ++ [cid],
                recentSet := st.recentSet ++ [cid] } := by
  have h' : ¬ st.maxHistory < (st.recentIds ++ [cid]).length := by
    simp only [List.length_append, List.length_cons, List.length_nil]
    omega
  unfold ledgerPush
  rw [if_neg h']

theorem ledgerPush_evict (st : ProcState) (cid : String)
    (h : st.maxHistory < st.recentIds.length + 1) :
    (ledgerPush st cid).recentIds = (st.recentIds ++ [cid]).drop 1 ∧
    (ledgerPush st cid).recentSet = (st.recentSet ++ [cid]).filter
      (fun x => x != (st.recentIds ++ [cid]).headD "") := by
  have h' : st.maxHistory < (st.recentIds ++ [cid]).length := by
    simp only [List.length_append, List.length_cons, List.length_nil]
    omega
  unfold ledgerPush
  rw [if_pos h']
  exact ⟨rfl, rfl⟩

theorem mem_ledgerPush_self (st : ProcState) (cid : String)
    (hinv : LedgerInv st) (hnew : cid ∉ st.recentSet)
    (hmax : 1 ≤ st.maxHistory) :
    cid ∈ (ledgerPush st cid).recentSet := by
  obtain ⟨hnd, hlen, hiff⟩ := hinv
  by_cases hev : st.maxHistory < st.recentIds.length + 1
  · obtain ⟨_, hset⟩ := ledgerPush_evict st cid hev
    rw [hset]
    cases hrec : st.recentIds with
    | nil =>
      rw [hrec] at hev
      simp only [List.length_nil] at hev
      omega
    | cons old rest =>
      have holdset : old ∈ st.recentSet :=
        (hiff old).mpr (by rw [hrec]; exact List.mem_cons_self _ _)
      have hco : cid ≠ old := fun h => hnew (h ▸ holdset)
      simp [List.mem_filter, List.mem_append, hco]
  · rw [ledgerPush_no_evict st cid (by omega)]
    simp

theorem nodup_concat_of {l : List String} {a : String} (hnd : l.Nodup)
    (ha : a ∉ l) : (l ++ [a]).Nodup := by
  simp [List.nodup_append, hnd, ha]

theorem ledgerPush_inv (st : ProcState) (cid : String) (hinv : LedgerInv st)
    (hnew : cid ∉ st.recentSet) :
    (ledgerPush st cid).recentIds.Nodup ∧
    (ledgerPush st cid).recentIds.length ≤ st.maxHistory ∧
    ∀ x, x ∈ (ledgerPush st cid).recentSet ↔
      x ∈ (ledgerPush st cid).recentIds := by
  obtain ⟨hnd, hlen, hiff⟩ := hinv
  have hcidIds : cid ∉ st.recentIds := fun hmem => hnew ((hiff cid).mpr hmem)
  by_cases hev : st.maxHistory < st.recentIds.length + 1
  · obtain ⟨hids, hset⟩ := ledgerPush_evict st cid hev
    cases hrec : st.recentIds with
    | nil =>
      rw [hrec] at hids hset
      have hsetnil : st.recentSet = [] := by
        rw [List.eq_nil_iff_forall_not_mem]
        intro x hx
        have hxi := (hiff x).mp hx
        rw [hrec] at hxi
        simp at hxi
      refine ⟨by rw [hids]; simp, by rw [hids]; simp, ?_⟩
      intro x
      rw [hids, hset, hsetnil]
      simp
    | cons old rest =>
      rw [hrec] at hids hset hnd hcidIds
      have holdset : old ∈ st.recentSet :=
        (hiff old).mpr (by rw [hrec]; exact List.mem_cons_self _ _)
      have hco : cid ≠ old := fun h => hnew (h ▸ holdset)
      have hor : old ∉ rest := (List.nodup_cons.mp hnd).1
      have hnr : rest.Nodup := (List.nodup_cons.mp hnd).2
      have hcr : cid ∉ rest := fun h => hcidIds (List.mem_cons_of_mem _ h)
      have hids' : (ledgerPush st cid).recentIds = rest ++ [cid] := by
        rw [hids]; simp
      refine ⟨?_, ?_, ?_⟩
      · rw [hids']
        exact nodup_concat_of hnr hcr
      · rw [hids']
        have hlen2 := hlen
        rw [hrec] at hlen2
        simp only [List.length_append, List.length_cons, List.length_nil]
        simp only [List.length_cons] at hlen2
        omega
      · intro x
        rw [hids', hset]
        have hiffx := hiff x
        rw [hrec] at hiffx
        simp only [List.mem_cons] at hiffx
        simp only [List.cons_append, List.headD_cons, List.mem_filter,
          List.mem_append, List.mem_singleton, List.mem_cons, bne_iff_ne,
          ne_eq, List.not_mem_nil, or_false]
        constructor
        · rintro ⟨hx1 | hx1, hx2⟩
          · rcases hiffx.mp hx1 with h1 | h1
            · exact absurd h1 hx2
            · exact Or.inl h1
          · exact Or.inr hx1
        · rintro (hx | hx)
          · exact ⟨Or.inl (hiffx.mpr (Or.inr hx)), fun he => hor (he ▸ hx)⟩
          · exact ⟨Or.inr hx, fun he => hco (hx.symm.trans he)⟩
  · rw [ledgerPush_no_evict st cid (by omega)]
    refine ⟨?_, ?_, ?_⟩
    · exact nodup_concat_of hnd hcidIds
    · simp only [List.length_append, List.length_cons, List.length_nil]
      omega
    · intro x
      simp [List.mem_append, hiff x]

theorem seqWindow_nil (lo : Int) : SeqWindow lo lo [] :=
  ⟨[], rfl, by simp, by simp⟩

theorem seqWindow_append {lo mid hi : Int} {p1 p2 : List Pub}
    (h1 : SeqWindow lo mid p1) (h2 : SeqWindow mid hi p2)
    (hlm : lo ≤ mid) (hmh : mid ≤ hi) : SeqWindow lo hi (p1 ++ p2) := by
  obtain ⟨s1, hm1, hc1, hb1⟩ := h1
  obtain ⟨s2, hm2, hc2, hb2⟩ := h2
  refine ⟨s1 ++ s2, ?_, ?_, ?_⟩
  · rw [List.map_append, hm1, hm2, List.map_append]
  · rw [List.chain'_append]
    refine ⟨hc1, hc2, ?_⟩
    intro x hx y hy
    have hx1 : x ∈ s1 := by
      cases s1 with
      | nil => simp at hx
      | cons a t => exact List.mem_of_mem_getLast? hx
    have hy1 : y ∈ s2 := by
      cases s2 with
      | nil => simp at hy
      | cons a t =>
        simp only [List.head?_cons, Option.mem_def, Option.some.injEq] at hy
        rw [← hy]
        exact List.mem_cons_self _ _
    exact lt_of_le_of_lt (hb1 x hx1).2 (hb2 y hy1).1
  · intro s hs
    rcases List.mem_append.mp hs with h | h
    · exact ⟨(hb1 s h).1, le_trans (hb1 s h).2 hmh⟩
    · exact ⟨lt_of_le_of_lt hlm (hb2 s h).1, (hb2 s h).2⟩

theorem seqWindow_two (st : ProcState) (a b : Pub)
    (ha : pubSeq a = some (st.seq + 1)) (hb : pubSeq b = some (st.seq + 1 + 1)) :
    SeqWindow st.seq (st.seq + 1 + 1) [a, b] := by
  refine ⟨[st.seq + 1, st.seq + 1 + 1], ?_, ?_, ?_⟩
  · show [pubSeq a, pubSeq b] = [some (st.seq + 1), some (st.seq + 1 + 1)]
    rw [ha, hb]
  · simp [List.chain'_cons]
  · intro s hs
    simp only [List.mem_cons, List.not_mem_nil, or_false] at hs
    rcases hs with h | h <;> subst h <;> omega

theorem process_seqFacts (st : ProcState) (data : Dict) (freshId : String)
    (now sT eT : ℚ) (hno : NoSeqOverride st.executors) :
    st.seq ≤ (process st data freshId now sT eT).state.seq ∧
    (process st data freshId now sT eT).state.executors = st.executors ∧
    SeqWindow st.seq (process st data freshId now sT eT).state.seq
      (process st data freshId now sT eT).pubs := by
  by_cases hc : cmdOf data = ""
  · rw [process_empty_name st data freshId now sT eT hc]
    exact ⟨le_refl _, rfl, seqWindow_nil st.seq⟩
  · by_cases hd : idOf data freshId ∈ st.recentSet
    · rw [process_duplicate st data freshId now sT eT hd]
      exact ⟨le_refl _, rfl, seqWindow_nil st.seq⟩
    · rcases process_accepted_split st data freshId now sT eT hc hd with
        ⟨_, heq⟩ | ⟨ex, cd, ts, _, _, _, _, _, heq⟩ | ⟨ex, hE, heq⟩
      · rw [heq]
        refine ⟨by show st.seq ≤ st.seq + 1 + 1; omega,
                ledgerPush_executors st _, ?_⟩
        exact seqWindow_two st _ _ (pubSeq_ack st data freshId now)
          (pubSeq_unknown st _ _ now _)
      · rw [heq]
        refine ⟨by show st.seq ≤ st.seq + 1 + 1; omega,
                ledgerPush_executors st _, ?_⟩
        exact seqWindow_two st _ _ (pubSeq_ack st data freshId now)
          (pubSeq_cooldown st _ _ now _ _)
      · obtain ⟨hseq', _, _, _, hexec', _⟩ :=
          runExecutor_facts
            { ledgerPush st (idOf data freshId) with seq := st.seq + 1 }
            (idOf data freshId) (cmdOf data) ex data (.time now) sT eT
        obtain ⟨p, hp, hps⟩ :=
          runExecutor_pubSeq
            { ledgerPush st (idOf data freshId) with seq := st.seq + 1 }
            (idOf data freshId) (cmdOf data) ex data (.time now) sT eT
            (hno _ _ (mem_of_alget_eq_some hE))
        rw [heq]
        refine ⟨?_, ?_, ?_⟩
        · show st.seq ≤ (runExecutor
            { ledgerPush st (idOf data freshId) with seq := st.seq + 1 }
            (idOf data freshId) (cmdOf data) ex data (.time now) sT eT).state.seq
          rw [hseq']
          show st.seq ≤ st.seq + 1 + 1
          omega
        · show (runExecutor
            { ledgerPush st (idOf data freshId) with seq := st.seq + 1 }
            (idOf data freshId) (cmdOf data) ex data (.time now)
            sT eT).state.executors = st.executors
          rw [hexec']
          exact ledgerPush_executors st _
        · show SeqWindow st.seq (runExecutor
            { ledgerPush st (idOf data freshId) with seq := st.seq + 1 }
            (idOf data freshId) (cmdOf data) ex data (.time now)
            sT eT).state.seq
            (ackPubOf st data freshId now :: (runExecutor
              { ledgerPush st (idOf data freshId) with seq := st.seq + 1 }
              (idOf data freshId) (cmdOf data) ex data (.time now) sT eT).pubs)
          rw [hseq', hp]
          exact seqWindow_two st _ _ (pubSeq_ack st data freshId now) hps

theorem runTrace_seqFacts (st : ProcState) (reqs : List Req)
    (hno : NoSeqOverride st.executors) :
    st.seq ≤ (runTrace st reqs).state.seq ∧
    (runTrace st reqs).state.executors = st.executors ∧
    SeqWindow st.seq (runTrace st reqs).state.seq (runTrace st reqs).pubs := by
  induction reqs generalizing st with
  | nil => exact ⟨le_refl _, rfl, seqWindow_nil st.seq⟩
  | cons r rs ih =>
    obtain ⟨h1, h2, hw⟩ :=
      process_seqFacts st r.data r.freshId r.now r.startT r.endT hno
    have hno' : NoSeqOverride
        (process st r.data r.freshId r.now r.startT r.endT).state.executors := by
      rw [h2]; exact hno
    obtain ⟨h1', h2', hw'⟩ :=
      ih (process st r.data r.freshId r.now r.startT r.endT).state hno'
    exact ⟨le_trans h1 h1', h2'.trans h2, seqWindow_append hw hw' h1 h1'⟩

theorem process_LedgerInv (st : ProcState) (data : Dict) (freshId : String)
    (now sT eT : ℚ) (hinv : LedgerInv st) :
    LedgerInv (process st data freshId now sT eT).state := by
  rcases process_ledger_cases st data freshId now sT eT with
    ⟨hst, _⟩ | ⟨hc, hd, hids, hset, hmax⟩
  · rw [hst]; exact hinv
  · obtain ⟨hnd, hlen, hiff⟩ := ledgerPush_inv st (idOf data freshId) hinv hd
    refine ⟨?_, ?_, ?_⟩
    · rw [hids]; exact hnd
    · rw [hids, hmax]; exact hlen
    · intro x; rw [hids, hset]; exact hiff x

theorem handleRaw_cases (st : ProcState) (payload : String)
    (jsonLoads : String → Option Dict) (freshId : String) (now sT eT : ℚ) :
    handleRaw st payload jsonLoads freshId now sT eT = ⟨st, [], []⟩ ∨
    ∃ data : Dict, handleRaw st payload jsonLoads freshId now sT eT =
      process st data freshId now sT eT := by
  by_cases hstr : pyStrip payload = ""
  · left; simp [handleRaw, hstr]
  · right
    by_cases hb : pyStartsWith (pyStrip payload) "\x7b"
    · cases hj : jsonLoads (pyStrip payload) with
      | some d => exact ⟨d, by simp [handleRaw, hstr, hb, hj]⟩
      | none =>
        exact ⟨[("command", .str (pyStrip payload))],
          by simp [handleRaw, hstr, hb, hj]⟩
    · exact ⟨[("command", .str (pyStrip payload))],
        by simp [handleRaw, hstr, hb]⟩

theorem runExecutor_calls (st : ProcState) (cmd_id cmd : String)
    (ex : Executor) (data : Dict) (rts : Val) (sT eT : ℚ) :
    (runExecutor st cmd_id cmd ex data rts sT eT).calls = [] ∨
    (runExecutor st cmd_id cmd ex data rts sT eT).calls
      = [mkCtx cmd_id cmd data rts] := by
  by_cases h : st.lockHeld
  · left; rw [runExecutor_busy st cmd_id cmd ex data rts sT eT h]
  · have h' : st.lockHeld = false := by simpa using h
    rcases hec : ex (mkCtx cmd_id cmd data rts) with msg | ⟨o, d, extra⟩
    · right; rw [runExecutor_err st cmd_id cmd ex data rts sT eT msg h' hec]
      rfl
    · right
      rw [runExecutor_ok st cmd_id cmd ex data rts sT eT o d extra h' hec]
      rfl

theorem process_calls (st : ProcState) (data : Dict) (freshId : String)
    (now sT eT : ℚ) :
    ∀ c ∈ (process st data freshId now sT eT).calls,
      c = mkCtx (idOf data freshId) (cmdOf data) data (Val.time now) := by
  by_cases hc : cmdOf data = ""
  · rw [process_empty_name st data freshId now sT eT hc]
    intro c h; simp at h
  · by_cases hd : idOf data freshId ∈ st.recentSet
    · rw [process_duplicate st data freshId now sT eT hd]
      intro c h; simp at h
    · rcases process_accepted_split st data freshId now sT eT hc hd with
        ⟨_, heq⟩ | ⟨ex, cd, ts, _, _, _, _, _, heq⟩ | ⟨ex, _, heq⟩
      · rw [heq]; intro c h; simp at h
      · rw [heq]; intro c h; simp at h
      · rw [heq]
        intro c h
        rcases runExecutor_calls
            { ledgerPush st (idOf data freshId) with seq := st.seq + 1 }
            (idOf data freshId) (cmdOf data) ex data (.time now) sT eT with
          hcal | hcal
        · rw [hcal] at h; simp at h
        · rw [hcal] at h
          simp only [List.mem_singleton] at h
          exact h

/-- C4: for every accepted command (non-empty name, unseen identifier), the
publish sequence is exactly the ack envelope — on the ack topic, with status
`received` — followed by that command's result envelope on the result topic,
whatever the terminal outcome (`unknown_command`, `cooldown`, `busy`,
`success`, `validation_failed` or `fatal_error`): the ack always precedes
the result. -/
theorem ack_emitted_before_result (st : ProcState) (data : Dict)
    (freshId : String) (now sT eT : ℚ) (hc : cmdOf data ≠ "")
    (hd : idOf data freshId ∉ st.recentSet) :
    ∃ res : Dict,
      (process st data freshId now sT eT).pubs =
        [ackPubOf st data freshId now, resPubOf st res] ∧
      alget (ackPubOf st data freshId now).payload "status"
        = some (Val.str "received") ∧
      (alget res "outcome").isSome = true := by
  obtain ⟨res, hp, ho⟩ := process_accepted_shape st data freshId now sT eT hc hd
  exact ⟨res, hp, rfl, ho⟩

/-- Witness for C4 at a concrete accepted command. -/
theorem ack_emitted_before_result_witness :
    ∃ res : Dict,
      (process stPing [("command", Val.str "ping"), ("id", Val.str "w4")]
        "f" 0 0 0).pubs =
        [ackPubOf stPing [("command", Val.str "ping"), ("id", Val.str "w4")]
          "f" 0, resPubOf stPing res] ∧
      alget (ackPubOf stPing [("command", Val.str "ping"),
        ("id", Val.str "w4")] "f" 0).payload "status"
        = some (Val.str "received") ∧
      (alget res "outcome").isSome = true :=
  ack_emitted_before_result stPing
    [("command", Val.str "ping"), ("id", Val.str "w4")] "f" 0 0 0
    (by decide) (by decide)

/-- C2: a dispatched worker that finds the global execution permit already
held publishes exactly one result with outcome `busy` and `duration_ms = 0`
and terminates at once: the executor is never invoked (`calls = []`), only
the sequence counter changes (so the cooldown table is untouched), and the
worker performs no wait or retry. -/
theorem busy_when_permit_held (st : ProcState) (cmd_id cmd : String)
    (ex : Executor) (data : Dict) (rts : Val) (sT eT : ℚ)
    (h : st.lockHeld = true) :
    runExecutor st cmd_id cmd ex data rts sT eT =
      ⟨{ st with seq := st.seq + 1 },
       [resPubOf st (busyEnvelope cmd_id cmd eT (st.seq + 1))], []⟩ ∧
    alget (busyEnvelope cmd_id cmd eT (st.seq + 1)) "outcome"
      = some (Val.str "busy") ∧
    alget (busyEnvelope cmd_id cmd eT (st.seq + 1)) "duration_ms"
      = some (Val.int 0) :=
  ⟨runExecutor_busy st cmd_id cmd ex data rts sT eT h, rfl, rfl⟩

/-- Witness for C2 at a processor whose permit is held. -/
theorem busy_when_permit_held_witness :
    stLocked.lockHeld = true ∧
    (runExecutor stLocked "w2" "work" okExec [] (Val.time 0) 0 0 =
      ⟨{ stLocked with seq := stLocked.seq + 1 },
       [resPubOf stLocked (busyEnvelope "w2" "work" 0 (stLocked.seq + 1))],
       []⟩ ∧
     alget (busyEnvelope "w2" "work" 0 (stLocked.seq + 1)) "outcome"
       = some (Val.str "busy") ∧
     alget (busyEnvelope "w2" "work" 0 (stLocked.seq + 1)) "duration_ms"
       = some (Val.int 0)) :=
  ⟨rfl, busy_when_permit_held stLocked "w2" "work" okExec [] (Val.time 0)
    0 0 rfl⟩

/-- C7: a raising executor is caught at the worker boundary: the single
published result has outcome `fatal_error` with the exception message as
`details`, the permit is released and the cooldown table untouched, and any
subsequently dispatched worker acquires the permit and invokes its executor
(its ghost call list is exactly its context). -/
theorem executor_exception_fatal_error (st : ProcState) (cmd_id cmd : String)
    (ex : Executor) (data : Dict) (rts : Val) (sT eT : ℚ) (msg : String)
    (hl : st.lockHeld = false)
    (he : ex (mkCtx cmd_id cmd data rts) = Except.error msg) :
    (runExecutor st cmd_id cmd ex data rts sT eT).pubs =
      [resPubOf st (resultEnvelope cmd_id cmd eT "fatal_error" msg
        (pyIntTrunc ((eT - sT) * 1000)) (st.seq + 1))] ∧
    (runExecutor st cmd_id cmd ex data rts sT eT).state.lockHeld = false ∧
    (runExecutor st cmd_id cmd ex data rts sT eT).state.lastSuccessTs
      = st.lastSuccessTs ∧
    ∀ cmd_id2 cmd2 ex2 data2 rts2 sT2 eT2 o2 d2 extra2,
      ex2 (mkCtx cmd_id2 cmd2 data2 rts2) = Except.ok (o2, d2, extra2) →
      (runExecutor (runExecutor st cmd_id cmd ex data rts sT eT).state
        cmd_id2 cmd2 ex2 data2 rts2 sT2 eT2).calls
        = [mkCtx cmd_id2 cmd2 data2 rts2] := by
  rw [runExecutor_err st cmd_id cmd ex data rts sT eT msg hl he]
  refine ⟨?_, rfl, ?_, ?_⟩
  · rw [runResult_pubs]
    rfl
  · show (if "fatal_error" = "success"
        then alset st.lastSuccessTs cmd sT else st.lastSuccessTs)
      = st.lastSuccessTs
    rw [if_neg (by decide)]
  · intro cmd_id2 cmd2 ex2 data2 rts2 sT2 eT2 o2 d2 extra2 he2
    rw [runExecutor_ok _ cmd_id2 cmd2 ex2 data2 rts2 sT2 eT2 o2 d2 extra2
      rfl he2]
    exact runResult_calls _ cmd_id2 cmd2 data2 rts2 o2 d2 extra2 sT2 eT2

/-- Witness for C7 at a concrete raising executor. -/
theorem executor_exception_fatal_error_witness :
    stPing.lockHeld = false ∧
    errExec (mkCtx "w7" "ping" [] (Val.time 0)) = Except.error "kaboom" ∧
    ((runExecutor stPing "w7" "ping" errExec [] (Val.time 0) 0 2).pubs =
      [resPubOf stPing (resultEnvelope "w7" "ping" 2 "fatal_error" "kaboom"
        (pyIntTrunc (((2 : ℚ) - 0) * 1000)) (stPing.seq + 1))] ∧
     (runExecutor stPing "w7" "ping" errExec []
       (Val.time 0) 0 2).state.lockHeld = false ∧
     (runExecutor stPing "w7" "ping" errExec []
       (Val.time 0) 0 2).state.lastSuccessTs = stPing.lastSuccessTs ∧
     ∀ cmd_id2 cmd2 ex2 data2 rts2 sT2 eT2 o2 d2 extra2,
       ex2 (mkCtx cmd_id2 cmd2 data2 rts2) = Except.ok (o2, d2, extra2) →
       (runExecutor (runExecutor stPing "w7" "ping" errExec [] (Val.time 0)
         0 2).state cmd_id2 cmd2 ex2 data2 rts2 sT2 eT2).calls
         = [mkCtx cmd_id2 cmd2 data2 rts2]) :=
  ⟨rfl, rfl, executor_exception_fatal_error stPing "w7" "ping" errExec []
    (Val.time 0) 0 2 "kaboom" rfl rfl⟩

/-- C9 (amended): on a `success` outcome the cooldown tracker records the
worker's start timestamp — the `time.time()` value read on worker entry,
before the executor ran — as `last_success_ts[name]` (the source stores
`start`, not the post-completion clock); for any other outcome the table is
unchanged. -/
theorem success_records_worker_start_time (st : ProcState)
    (cmd_id cmd : String) (ex : Executor) (data : Dict) (rts : Val)
    (sT eT : ℚ) (o d : String) (extra : Dict) (hl : st.lockHeld = false)
    (he : ex (mkCtx cmd_id cmd data rts) = Except.ok (o, d, extra)) :
    (runExecutor st cmd_id cmd ex data rts sT eT).state.lastSuccessTs =
      (if o = "success" then alset st.lastSuccessTs cmd sT
       else st.lastSuccessTs) := by
  rw [runExecutor_ok st cmd_id cmd ex data rts sT eT o d extra hl he]
  rfl

/-- Witness for C9's amended statement at a concrete successful run. -/
theorem success_records_worker_start_time_witness :
    stPing.lockHeld = false ∧
    (runExecutor stPing "w9b" "ping" okExec [] (Val.time 0)
      3 7).state.lastSuccessTs =
      (if "success" = "success" then alset stPing.lastSuccessTs "ping" (3 : ℚ)
       else stPing.lastSuccessTs) :=
  ⟨rfl, success_records_worker_start_time stPing "w9b" "ping" okExec []
    (Val.time 0) 3 7 "success" "ok" [] rfl rfl⟩

/-- C9 counterexample: a worker that starts at instant 0 and completes at
instant 5 with outcome `success` records `last_success_ts = 0` — the start
instant — not the current time at the moment of recording after execution
completes (5). -/
theorem success_not_recorded_at_completion :
    alget ((runExecutor stPing "w9" "ping" okExec [] (Val.time 0)
      0 5).state.lastSuccessTs) "ping" = some (0 : ℚ) ∧ (0 : ℚ) ≠ 5 :=
  ⟨rfl, by norm_num⟩

/-- C10: when a succeeding executor's extra map binds a key — including a
standard result-envelope field such as `outcome`, `seq`, `id` or
`duration_ms` — the published result carries the extra map's value for that
key: `result.update(extra)` silently overwrites the core-computed value. -/
theorem extra_overrides_standard_fields (st : ProcState) (cmd_id cmd : String)
    (ex : Executor) (data : Dict) (rts : Val) (sT eT : ℚ) (o d : String)
    (extra : Dict) (k : String) (v : Val) (hl : st.lockHeld = false)
    (he : ex (mkCtx cmd_id cmd data rts) = Except.ok (o, d, extra))
    (hk : alget extra k = some v) :
    ∃ p : Pub, (runExecutor st cmd_id cmd ex data rts sT eT).pubs = [p] ∧
      alget p.payload k = some v := by
  rw [runExecutor_ok st cmd_id cmd ex data rts sT eT o d extra hl he]
  refine ⟨_, runResult_pubs st cmd_id cmd data rts o d extra sT eT, ?_⟩
  have hx : extra.isEmpty = false := by
    cases extra with
    | nil => simp [alget] at hk
    | cons a t => rfl
  simp only [hx, Bool.false_eq_true, if_false]
  exact alget_dictUpdate_of_extra hk

/-- Witness for C10: an executor whose extra map overrides `outcome`. -/
theorem extra_overrides_standard_fields_witness :
    ∃ p : Pub,
      (runExecutor (register (initState "ack" "result" 128) "osc"
        overrideOutcomeExec none) "w10" "osc" overrideOutcomeExec []
        (Val.time 0) 0 1).pubs = [p] ∧
      alget p.payload "outcome" = some (Val.str "hacked") :=
  extra_overrides_standard_fields
    (register (initState "ack" "result" 128) "osc" overrideOutcomeExec none)
    "w10" "osc" overrideOutcomeExec [] (Val.time 0) 0 1 "success" "ok"
    [("outcome", Val.str "hacked")] "outcome" (Val.str "hacked")
    rfl rfl rfl

theorem process_cooldown_eq (st : ProcState) (data : Dict)
    (freshId : String) (now sT eT : ℚ) (cd : Int) (ts : ℚ) (ex : Executor)
    (hc : cmdOf data ≠ "") (hd : idOf data freshId ∉ st.recentSet)
    (hex : alget st.executors (cmdOf data) = some ex)
    (hcd : alget ((alget st.registryMeta (cmdOf data)).getD [])
      "cooldown_seconds" = some (Val.int cd))
    (hpos : 0 < cd)
    (hts : alget st.lastSuccessTs (cmdOf data) = some ts)
    (hlt : now - ts < (cd : ℚ)) :
    process st data freshId now sT eT =
      ⟨{ ledgerPush st (idOf data freshId) with seq := st.seq + 1 + 1 },
       [ackPubOf st data freshId now,
        resPubOf st (cooldownEnvelope (idOf data freshId) (cmdOf data) now
          (pyIntTrunc ((cd : ℚ) - (now - ts))) (st.seq + 1 + 1))], []⟩ := by
  simp only [process]
  rw [if_neg hc, if_neg hd, hex, hcd, hts]
  simp [ackPubOf, ledgerPush_seq, hpos, hlt]

/-- C5 (amended): a registered command with a configured positive
`cooldown_seconds` and a recorded prior success, re-issued while
`elapsed = now - last_success_ts < cooldown_seconds`, short-circuits to a
`cooldown` result whose `retry_after_s` is `int(cooldown_seconds - elapsed)`
— Python truncation, i.e. the floor of the positive remainder — not the
ceiling; the executor is never invoked and the cooldown table and permit are
untouched. -/
theorem cooldown_short_circuit (st : ProcState) (data : Dict)
    (freshId : String) (now sT eT : ℚ) (cd : Int) (ts : ℚ) (ex : Executor)
    (hc : cmdOf data ≠ "") (hd : idOf data freshId ∉ st.recentSet)
    (hex : alget st.executors (cmdOf data) = some ex)
    (hcd : alget ((alget st.registryMeta (cmdOf data)).getD [])
      "cooldown_seconds" = some (Val.int cd))
    (hpos : 0 < cd)
    (hts : alget st.lastSuccessTs (cmdOf data) = some ts)
    (hlt : now - ts < (cd : ℚ)) :
    (process st data freshId now sT eT).pubs =
      [ackPubOf st data freshId now,
       resPubOf st (cooldownEnvelope (idOf data freshId) (cmdOf data) now
         (pyIntTrunc ((cd : ℚ) - (now - ts))) (st.seq + 1 + 1))] ∧
    (process st data freshId now sT eT).calls = [] ∧
    (process st data freshId now sT eT).state.lastSuccessTs
      = st.lastSuccessTs ∧
    (process st data freshId now sT eT).state.lockHeld = st.lockHeld := by
  rw [process_cooldown_eq st data freshId now sT eT cd ts ex hc hd hex hcd
    hpos hts hlt]
  refine ⟨rfl, rfl, ?_, ?_⟩
  · show (ledgerPush st (idOf data freshId)).lastSuccessTs
      = st.lastSuccessTs
    exact ledgerPush_lastSuccessTs st _
  · show (ledgerPush st (idOf data freshId)).lockHeld = st.lockHeld
    exact ledgerPush_lockHeld st _

/-- Witness for C5's amended statement: `ping` with cooldown 1, last success
at 0, re-issued at time 1/2. -/
theorem cooldown_short_circuit_witness :
    (process st5 [("command", Val.str "ping"), ("id", Val.str "w5")] "f"
      (1/2) (1/2) (1/2)).pubs =
      [ackPubOf st5 [("command", Val.str "ping"), ("id", Val.str "w5")] "f"
        (1/2),
       resPubOf st5 (cooldownEnvelope
         (idOf [("command", Val.str "ping"), ("id", Val.str "w5")] "f")
         (cmdOf [("command", Val.str "ping"), ("id", Val.str "w5")]) (1/2)
         (pyIntTrunc (((1 : Int) : ℚ) - ((1/2) - (0 : ℚ))))
         (st5.seq + 1 + 1))] ∧
    (process st5 [("command", Val.str "ping"), ("id", Val.str "w5")] "f"
      (1/2) (1/2) (1/2)).calls = [] ∧
    (process st5 [("command", Val.str "ping"), ("id", Val.str "w5")] "f"
      (1/2) (1/2) (1/2)).state.lastSuccessTs = st5.lastSuccessTs ∧
    (process st5 [("command", Val.str "ping"), ("id", Val.str "w5")] "f"
      (1/2) (1/2) (1/2)).state.lockHeld = st5.lockHeld :=
  cooldown_short_circuit st5
    [("command", Val.str "ping"), ("id", Val.str "w5")] "f" (1/2) (1/2) (1/2)
    1 0 okExec (by decide) (by decide) rfl rfl (by decide) rfl (by norm_num)

/-- C5 counterexample: with `cooldown_seconds = 1` and `elapsed = 1/2`, the
published `retry_after_s` is `int(1 - 1/2) = 0`, whereas the claim's
`ceil(1 - 1/2)` is `1`. -/
theorem retry_after_is_truncation_not_ceiling :
    ((process st5 [("command", Val.str "ping"), ("id", Val.str "c5")] "f"
      (1/2) (1/2) (1/2)).pubs.map
        (fun p => alget p.payload "retry_after_s")) =
      [none, some (Val.int 0)] ∧
    ⌈(1 : ℚ) - 1/2⌉ = 1 ∧ (0 : Int) ≠ 1 := by
  refine ⟨?_, ?_, by decide⟩
  · rw [process_cooldown_eq st5
      [("command", Val.str "ping"), ("id", Val.str "c5")] "f" (1/2) (1/2)
      (1/2) 1 0 okExec (by decide) (by decide) rfl rfl (by decide) rfl
      (by norm_num)]
    have htr : pyIntTrunc (((1 : Int) : ℚ) - ((1/2) - (0 : ℚ))) = 0 := by
      have h1 : ((1 : Int) : ℚ) - ((1/2) - (0 : ℚ)) = 1/2 := by norm_num
      rw [pyIntTrunc, h1, if_pos (by norm_num)]
      rw [Int.floor_eq_iff]
      constructor <;> norm_num
    rw [List.map_cons, List.map_cons, List.map_nil, htr]
    rfl
  · rw [show (1 : ℚ) - 1/2 = 1/2 by norm_num]
    rw [Int.ceil_eq_iff]
    constructor <;> norm_num

/-- C6 (amended): for an inbound payload whose stripped text starts with
`\x7b` and decodes as a structured object, the command name is read only
from the object's `command` field (normalized by strip/lower) — the `name`
field is ignored, so `\x7b"name":"x"\x7d` is dropped (see the
counterexample) — while the optional `id`, `args` and `requested_ts` fields
are read: the ack carries the `command`-field name and the supplied id, and
any invoked executor receives the context built from the payload's
`requested_ts` and `args`. -/
theorem parsed_object_reads_command_field (st : ProcState) (payload : String)
    (jsonLoads : String → Option Dict) (data : Dict) (freshId : String)
    (now sT eT : ℚ)
    (hb : pyStartsWith (pyStrip payload) "\x7b" = true)
    (hj : jsonLoads (pyStrip payload) = some data)
    (hc : cmdOf data ≠ "") (hd : idOf data freshId ∉ st.recentSet) :
    (∃ res : Dict,
      (handleRaw st payload jsonLoads freshId now sT eT).pubs =
        [ackPubOf st data freshId now, resPubOf st res] ∧
      (alget res "outcome").isSome = true) ∧
    ∀ c ∈ (handleRaw st payload jsonLoads freshId now sT eT).calls,
      c = mkCtx (idOf data freshId) (cmdOf data) data (Val.time now) := by
  have hne : pyStrip payload ≠ "" := by
    intro h
    rw [h] at hb
    exact absurd hb (by decide)
  have heq : handleRaw st payload jsonLoads freshId now sT eT =
      process st data freshId now sT eT := by
    simp [handleRaw, hne, hb, hj]
  rw [heq]
  exact ⟨process_accepted_shape st data freshId now sT eT hc hd,
    process_calls st data freshId now sT eT⟩

/-- Witness for C6's amended statement: a structured payload carrying
`command`, `id`, `requested_ts` and `args`, handled on a processor with an
executor registered for the normalized name `x`. -/
theorem parsed_object_reads_command_field_witness :
    (∃ res : Dict,
      (handleRaw st6
        "\x7b\"command\":\"X\",\"id\":\"i1\",\"requested_ts\":\"2024-01-01\",\"args\":\x7b\"k\":7\x7d\x7d"
        jsonX "f" 0 0 0).pubs =
        [ackPubOf st6 [("command", Val.str "X"), ("id", Val.str "i1"),
          ("requested_ts", Val.str "2024-01-01"),
          ("args", Val.obj [("k", Val.int 7)])] "f" 0,
         resPubOf st6 res] ∧
      (alget res "outcome").isSome = true) ∧
    ∀ c ∈ (handleRaw st6
        "\x7b\"command\":\"X\",\"id\":\"i1\",\"requested_ts\":\"2024-01-01\",\"args\":\x7b\"k\":7\x7d\x7d"
        jsonX "f" 0 0 0).calls,
      c = mkCtx (idOf [("command", Val.str "X"), ("id", Val.str "i1"),
          ("requested_ts", Val.str "2024-01-01"),
          ("args", Val.obj [("k", Val.int 7)])] "f")
        (cmdOf [("command", Val.str "X"), ("id", Val.str "i1"),
          ("requested_ts", Val.str "2024-01-01"),
          ("args", Val.obj [("k", Val.int 7)])])
        [("command", Val.str "X"), ("id", Val.str "i1"),
          ("requested_ts", Val.str "2024-01-01"),
          ("args", Val.obj [("k", Val.int 7)])] (Val.time 0) :=
  parsed_object_reads_command_field st6
    "\x7b\"command\":\"X\",\"id\":\"i1\",\"requested_ts\":\"2024-01-01\",\"args\":\x7b\"k\":7\x7d\x7d"
    jsonX
    [("command", Val.str "X"), ("id", Val.str "i1"),
     ("requested_ts", Val.str "2024-01-01"),
     ("args", Val.obj [("k", Val.int 7)])]
    "f" 0 0 0 (by decide) rfl (by decide) (by decide)

/-- C6 counterexample: the structured payload `\x7b"name":"x"\x7d` decodes
to an object with a `name` field only; `_process` reads `data.get("command")`
— never `name` — finds no name, and drops the request entirely: no ack, no
result, no executor call, no state change, instead of yielding a command
named `x` as the claim states. -/
theorem name_field_payload_dropped :
    handleRaw st6 "\x7b\"name\":\"x\"\x7d" json6 "f" 0 0 0 = ⟨st6, [], []⟩ ∧
    cmdOf [("name", Val.str "x")] = "" :=
  ⟨rfl, rfl⟩

/-- C1: on a well-formed processor with `max_history ≥ 1`, an accepted
command carrying a caller-supplied identifier yields exactly one ack and
exactly one result; a second command submitted with the same identifier
while it is still in the dedup window is dropped whole — no ack, no result,
and the entire state (deduplication ledger, sequence counter, cooldown
table) is unchanged. -/
theorem duplicate_submission_dropped (st : ProcState) (data1 data2 : Dict)
    (freshId1 freshId2 : String) (n1 s1 e1 n2 s2 e2 : ℚ)
    (hinv : LedgerInv st) (hmax : 1 ≤ st.maxHistory)
    (hc1 : cmdOf data1 ≠ "")
    (hid1 : pyStrip (getStr data1 "id") ≠ "")
    (hnew : idOf data1 freshId1 ∉ st.recentSet)
    (hc2 : cmdOf data2 ≠ "")
    (hsame : pyStrip (getStr data2 "id") = pyStrip (getStr data1 "id")) :
    (∃ res : Dict,
      (process st data1 freshId1 n1 s1 e1).pubs =
        [ackPubOf st data1 freshId1 n1, resPubOf st res] ∧
      (alget res "outcome").isSome = true) ∧
    process (process st data1 freshId1 n1 s1 e1).state data2 freshId2
        n2 s2 e2 =
      ⟨(process st data1 freshId1 n1 s1 e1).state, [], []⟩ := by
  refine ⟨process_accepted_shape st data1 freshId1 n1 s1 e1 hc1 hnew, ?_⟩
  have hid2 : idOf data2 freshId2 = idOf data1 freshId1 := by
    unfold idOf
    rw [hsame, if_neg hid1, if_neg hid1]
  have hmem1 : idOf data1 freshId1 ∈
      (process st data1 freshId1 n1 s1 e1).state.recentSet := by
    rcases process_ledger_cases st data1 freshId1 n1 s1 e1 with
      ⟨_, hpubs⟩ | ⟨_, _, _, hset, _⟩
    · obtain ⟨res, hp, _⟩ :=
        process_accepted_shape st data1 freshId1 n1 s1 e1 hc1 hnew
      rw [hp] at hpubs
      simp at hpubs
    · rw [hset]
      exact mem_ledgerPush_self st (idOf data1 freshId1) hinv hnew hmax
  exact process_duplicate _ data2 freshId2 n2 s2 e2 (by rw [hid2]; exact hmem1)

/-- Witness for C1: `ping` submitted twice with id `a`. -/
theorem duplicate_submission_dropped_witness :
    (∃ res : Dict,
      (process stPing [("command", Val.str "ping"), ("id", Val.str "a")]
        "f1" 0 0 0).pubs =
        [ackPubOf stPing [("command", Val.str "ping"), ("id", Val.str "a")]
          "f1" 0, resPubOf stPing res] ∧
      (alget res "outcome").isSome = true) ∧
    process (process stPing [("command", Val.str "ping"),
        ("id", Val.str "a")] "f1" 0 0 0).state
      [("command", Val.str "ping"), ("id", Val.str "a")] "f2" 1 1 1 =
      ⟨(process stPing [("command", Val.str "ping"),
        ("id", Val.str "a")] "f1" 0 0 0).state, [], []⟩ :=
  duplicate_submission_dropped stPing
    [("command", Val.str "ping"), ("id", Val.str "a")]
    [("command", Val.str "ping"), ("id", Val.str "a")] "f1" "f2" 0 0 0 1 1 1
    ⟨List.nodup_nil, by decide, fun x => Iff.rfl⟩ (by decide) (by decide)
    (by decide) (by decide) (by decide) rfl

/-- C8: starting from a well-formed processor, after any `handle_raw` call
the deduplication ledger again holds at most `max_history` identifiers,
duplicate-free, with the lookup set containing exactly the identifiers of
the ordered list; and when accepting a new identifier pushes the list past
`max_history`, the oldest identifier is evicted from both the list and the
set (the list becomes its tail plus the new identifier). -/
theorem ledger_bounded_and_in_sync (st : ProcState) (hinv : LedgerInv st) :
    (∀ payload jsonLoads freshId now sT eT,
      LedgerInv (handleRaw st payload jsonLoads freshId now sT eT).state) ∧
    (∀ data freshId now sT eT old rest,
      cmdOf data ≠ "" → idOf data freshId ∉ st.recentSet →
      st.recentIds = old :: rest →
      st.maxHistory < st.recentIds.length + 1 →
      (process st data freshId now sT eT).state.recentIds =
        rest ++ [idOf data freshId] ∧
      old ∉ (process st data freshId now sT eT).state.recentSet) := by
  constructor
  · intro payload jsonLoads freshId now sT eT
    rcases handleRaw_cases st payload jsonLoads freshId now sT eT with
      heq | ⟨data, heq⟩
    · rw [heq]; exact hinv
    · rw [heq]; exact process_LedgerInv st data freshId now sT eT hinv
  · intro data freshId now sT eT old rest hc hd hrec hov
    rcases process_ledger_cases st data freshId now sT eT with
      ⟨_, hpubs⟩ | ⟨_, _, hids, hset, _⟩
    · obtain ⟨res, hp, _⟩ :=
        process_accepted_shape st data freshId now sT eT hc hd
      rw [hp] at hpubs
      simp at hpubs
    · obtain ⟨hev1, hev2⟩ := ledgerPush_evict st (idOf data freshId) hov
      constructor
      · rw [hids, hev1, hrec]
        simp
      · rw [hset, hev2, hrec]
        simp [List.mem_filter]

/-- Witness for C8 on a small well-formed processor. -/
theorem ledger_bounded_and_in_sync_witness :
    (∀ payload jsonLoads freshId now sT eT,
      LedgerInv
        (handleRaw stPing payload jsonLoads freshId now sT eT).state) ∧
    (∀ data freshId now sT eT old rest,
      cmdOf data ≠ "" → idOf data freshId ∉ stPing.recentSet →
      stPing.recentIds = old :: rest →
      stPing.maxHistory < stPing.recentIds.length + 1 →
      (process stPing data freshId now sT eT).state.recentIds =
        rest ++ [idOf data freshId] ∧
      old ∉ (process stPing data freshId now sT eT).state.recentSet) :=
  ledger_bounded_and_in_sync stPing
    ⟨List.nodup_nil, by decide, fun x => Iff.rfl⟩

/-- C3 (amended): provided no registered executor returns an extra map
binding a `"seq"` key (such extras overwrite the published envelope's `seq`
field — see C10 and the counterexample), the `seq` values carried by all
envelopes emitted over any trace of one processor instance — acks and
results together, drawn from the single shared counter — are strictly
increasing integers with no repeats, in emission order. -/
theorem seq_strictly_increasing (st : ProcState) (reqs : List Req)
    (hno : NoSeqOverride st.executors) :
    StrictlyIncreasingSeqs (runTrace st reqs).pubs := by
  obtain ⟨_, _, seqs, hm, hc, _⟩ := runTrace_seqFacts st reqs hno
  exact ⟨seqs, hm, hc⟩

/-- Witness for C3's amended statement: two `ping` commands through a
processor whose only executor returns no extra fields. -/
theorem seq_strictly_increasing_witness :
    NoSeqOverride stPing.executors ∧
    StrictlyIncreasingSeqs (runTrace stPing
      [⟨[("command", Val.str "ping"), ("id", Val.str "a")], "f", 0, 0, 0⟩,
       ⟨[("command", Val.str "ping"), ("id", Val.str "b")], "f", 0, 0,
        0⟩]).pubs := by
  have hno : NoSeqOverride stPing.executors := by
    intro nm exf hmem ctx o d extra he
    have hm : (nm, exf) = ("ping", okExec) := by
      have : stPing.executors = [("ping", okExec)] := rfl
      rw [this] at hmem
      simpa using hmem
    have hexf : exf = okExec := congrArg Prod.snd hm
    subst hexf
    simp only [okExec, Except.ok.injEq, Prod.mk.injEq] at he
    obtain ⟨-, -, hextra⟩ := he
    rw [← hextra]
    rfl
  exact ⟨hno, seq_strictly_increasing stPing
    [⟨[("command", Val.str "ping"), ("id", Val.str "a")], "f", 0, 0, 0⟩,
     ⟨[("command", Val.str "ping"), ("id", Val.str "b")], "f", 0, 0, 0⟩] hno⟩

/-- C3 counterexample: an executor whose extra map binds `"seq" = 1` makes
the processor publish an ack carrying seq 1 followed by a result whose
published seq is also 1 — the emitted seq values repeat, so they are not
strictly increasing as the claim states. -/
theorem seq_values_can_repeat :
    ¬ StrictlyIncreasingSeqs
      (process stClob [("command", Val.str "boom"), ("id", Val.str "a")]
        "f" 0 0 0).pubs := by
  rintro ⟨seqs, hm, hc⟩
  have hv : (process stClob [("command", Val.str "boom"),
      ("id", Val.str "a")] "f" 0 0 0).pubs.map pubSeq = [some 1, some 1] :=
    rfl
  rw [hv] at hm
  rcases seqs with _ | ⟨a, _ | ⟨b, rest⟩⟩
  · simp at hm
  · simp at hm
  · rcases rest with _ | ⟨c, r⟩
    · simp only [List.map_cons, List.map_nil, List.cons.injEq,
        Option.some.injEq] at hm
      obtain ⟨ha, hb, _⟩ := hm
      subst ha
      subst hb
      simp [List.chain'_cons] at hc
    · simp at hm

end HaMqtt
